import Mathlib

/-!
Verification of the `SortedIntArray` container
(`g/container/garray/garray_sorted_int.go`).

The Go structure holds a backing slice of machine ints, a uniqueness flag
and a concurrency mode.  We embed it shallowly: the backing slice becomes a
`List Int` (Go `int` arithmetic here never overflows: only comparisons and
index arithmetic on in-memory slices occur), the `gtype.Bool` uniqueness
flag becomes a `Bool`, and the `rwmutex` is reduced to its `IsSafe` bit.
Operations that can panic in Go (out-of-range slice bounds, `make` with a
negative length) return `Option`, with `none` for the panic.
-/

namespace GArray

/-- The state of a `SortedIntArray`: backing array, uniqueness flag and the
concurrency-safety bit of its `rwmutex`. -/
structure SortedIntArray where
  array : List Int
  unique : Bool
  safe : Bool
deriving Repr, DecidableEq

/-- Modelled from the spec: `rwmutex.New(unsafe...)` (the `rwmutex` package is
not part of the sources at hand).  The spec and the constructor comments say
the optional boolean argument requests an un-concurrent-safe instance, false
by default, "means concurrent-safe in default"; `mu.IsSafe()` reports that
mode.  So the safety bit is the negation of the argument. -/
def rwmutexNew (unsafeFlag : Bool) : Bool := !unsafeFlag

/-- The default comparator installed by `NewSortedIntArraySize`:
`-1` for `v1 < v2`, `1` for `v1 > v2`, `0` otherwise.  No constructor in the
file installs any other comparator, so it is fixed in the embedding. -/
def compareFunc (v1 v2 : Int) : Int :=
  if v1 < v2 then -1 else if v1 > v2 then 1 else 0

/-- `NewSortedIntArraySize` (the capacity hint only affects allocation). -/
def NewSortedIntArraySize (unsafeFlag : Bool) : SortedIntArray :=
  { array := [], unique := false, safe := rwmutexNew unsafeFlag }

/-- `sort.Ints`: sort ascending.  (`mergeSort` with the `≤` test.) -/
def sortInts (l : List Int) : List Int :=
  l.mergeSort (fun a b => decide (a ≤ b))

/-- `NewSortedIntArrayFrom`: take the given slice and sort it in place. -/
def NewSortedIntArrayFrom (arr : List Int) (unsafeFlag : Bool) : SortedIntArray :=
  { array := sortInts arr, unique := false, safe := rwmutexNew unsafeFlag }

/-- The loop of `binSearch`.  Go's `int` division `(min + max) / 2` truncates
toward zero, hence `Int.tdiv`.  Reads `a.array[mid]`; in every reachable call
`0 ≤ mid < len` so the `getD` default is never consulted. -/
def binSearchLoop (arr : List Int) (value : Int) (mn mx mid cmp : Int) :
    Int × Int :=
  if mn ≤ mx then
    let m := Int.tdiv (mn + mx) 2
    let c := compareFunc value (arr.getD m.toNat 0)
    if c < 0 then binSearchLoop arr value mn (m - 1) m c
    else if c > 0 then binSearchLoop arr value (m + 1) mx m c
    else (m, c)
  else (mid, cmp)
termination_by (mx + 1 - mn).toNat
decreasing_by
  all_goals
    rcases Int.le_or_lt 0 (mn + mx) with hs | hs
    · rw [Int.tdiv_eq_ediv hs (by norm_num)] at *; omega
    · have h2 : mn + mx = -(-(mn + mx)) := by ring
      rw [h2, Int.neg_tdiv, Int.tdiv_eq_ediv (by omega) (by norm_num)] at *
      omega

/-- `binSearch`: `(-1, -2)` on the empty array, else run the loop on the
whole index range with the initial `mid = 0`, `cmp = -2`. -/
def binSearch (arr : List Int) (value : Int) : Int × Int :=
  if arr.length = 0 then (-1, -2)
  else binSearchLoop arr value 0 ((arr.length : Int) - 1) 0 (-2)

/-- `Search`: returns the index component of `binSearch` unconditionally. -/
def Search (a : SortedIntArray) (value : Int) : Int :=
  (binSearch a.array value).1

/-- `Contains`: literally `a.Search(value) == 0`. -/
def Contains (a : SortedIntArray) (value : Int) : Bool :=
  Search a value == 0

/-- One iteration of the `Add` loop: locate `value`, skip it when `unique`
is set and an equal element was found, append when the array is empty
(index `-1`), else splice at the insertion index (`index+1` when the last
comparison was `greater`). -/
def insertValue (arr : List Int) (uniq : Bool) (value : Int) : List Int :=
  let p := binSearch arr value
  if uniq = true ∧ p.2 = 0 then arr
  else if p.1 < 0 then arr ++ [value]
  else
    let index := if p.2 > 0 then p.1 + 1 else p.1
    arr.take index.toNat ++ value :: arr.drop index.toNat

/-- `Add(values...)`: insert each value in argument order. -/
def Add (a : SortedIntArray) (values : List Int) : SortedIntArray :=
  { a with array := values.foldl (fun arr v => insertValue arr a.unique v) a.array }

/-- `Merge`: append the other array's contents and re-sort.  The
`a != array` test in the source only skips the second lock acquisition;
both branches perform the same append-and-sort on the contents, so a
self-merge is `Merge a a`. -/
def Merge (a other : SortedIntArray) : SortedIntArray :=
  { a with array := sortInts (a.array ++ other.array) }

/-- `Clone`: copy the contents and build a new array via
`NewSortedIntArrayFrom(array, !a.mu.IsSafe())`. -/
def Clone (a : SortedIntArray) : SortedIntArray :=
  NewSortedIntArrayFrom a.array (!a.safe)

/-- The loop of `Unique`: stop when `i == len-1` (an `int` comparison, so
`-1` on the empty array and the loop does not stop there); compare
`a.array[i]` with `a.array[i+1]` — `none` when that access is out of range
(the Go code panics there) — and either splice out the duplicate at `i+1`
or advance `i`. -/
def uniqueLoop (arr : List Int) (i : Nat) : Option (List Int) :=
  if (i : Int) = (arr.length : Int) - 1 then some arr
  else if h : i + 1 < arr.length then
    if compareFunc (arr.getD i 0) (arr.getD (i + 1) 0) = 0 then
      uniqueLoop (arr.take (i + 1) ++ arr.drop (i + 2)) i
    else uniqueLoop arr (i + 1)
  else none
termination_by arr.length - i
decreasing_by
  · simp only [List.length_append, List.length_take, List.length_drop]
    omega
  · omega

/-- `Unique()`: run the deduplication loop from `i = 0`. -/
def Unique (a : SortedIntArray) : Option SortedIntArray :=
  (uniqueLoop a.array 0).map (fun l => { a with array := l })

/-- `SetUnique`: write the flag and, on a false→true transition, run
`Unique()`. -/
def SetUnique (a : SortedIntArray) (u : Bool) : Option SortedIntArray :=
  let old := a.unique
  let a1 := { a with unique := u }
  if u = true ∧ old ≠ u then Unique a1 else some a1

/-- `PopLefts(size)`: clamp `size` down to the length, then split.  Go's
`a.array[0:size]` panics for a negative `size` (no lower clamp), hence
`none` there.  Returns (popped, remaining). -/
def PopLefts (arr : List Int) (size : Int) : Option (List Int × List Int) :=
  let size1 := if size > (arr.length : Int) then (arr.length : Int) else size
  if size1 < 0 then none
  else some (arr.take size1.toNat, arr.drop size1.toNat)

/-- `PopRights(size)`: `index := len - size`, clamped below at 0.  For a
negative `size` the index exceeds the length and `a.array[index:]` panics
(for a slice whose capacity equals its length), hence `none`. -/
def PopRights (arr : List Int) (size : Int) : Option (List Int × List Int) :=
  let index := (arr.length : Int) - size
  let index1 := if index < 0 then 0 else index
  if index1 > (arr.length : Int) then none
  else some (arr.drop index1.toNat, arr.take index1.toNat)

/-- `Range(start, end)`: `nil` when `start > len` or `start > end`; clamp
`start` below at 0 and `end` above at `len`; then slice.  When the clamped
`end` is still negative, `make([]int, end-start)` / `a.array[start:end]`
panic, hence `none`.  The safe mode copies and the unsafe mode aliases the
same element sequence, so one result covers both modes.  Outer `none` =
panic, inner `none` = Go `nil`. -/
def Range (arr : List Int) (start stop : Int) : Option (Option (List Int)) :=
  if start > (arr.length : Int) ∨ start > stop then some none
  else
    let start1 := if start < 0 then 0 else start
    let stop1 := if stop > (arr.length : Int) then (arr.length : Int) else stop
    if stop1 < start1 then none
    else some (some ((arr.drop start1.toNat).take (stop1 - start1).toNat))

/-- `SubSlice(offset, size)`: `nil` when `offset > len`; clamp `size` down
to `len - offset` when `offset + size` overshoots.  Safe mode copies `size`
elements from `a.array[offset:]` (`none` when `make` gets a negative
length); unsafe mode returns `a.array[offset:]` itself, ignoring `size`.
A negative `offset` makes `a.array[offset:]` panic in both branches.
Outer `none` = panic, inner `none` = Go `nil`. -/
def SubSlice (safe : Bool) (arr : List Int) (offset size : Int) :
    Option (Option (List Int)) :=
  if offset > (arr.length : Int) then some none
  else
    let size1 := if offset + size > (arr.length : Int)
                 then (arr.length : Int) - offset else size
    if offset < 0 then none
    else if safe then
      if size1 < 0 then none
      else some (some ((arr.drop offset.toNat).take size1.toNat))
    else some (some (arr.drop offset.toNat))

/-- The chunk the `Chunk` loop emits for loop counter `i`:
`a.array[i*size : min((i+1)*size, len)]`. -/
def chunkSeg (arr : List Int) (size i : Nat) : List Int :=
  (arr.drop (i * size)).take (min ((i + 1) * size) arr.length - i * size)

/-- The `Chunk` loop: `chunks` countdown iterations from loop counter `i`. -/
def chunkLoop (arr : List Int) (size i : Nat) : Nat → List (List Int)
  | 0 => []
  | c + 1 => chunkSeg arr size i :: chunkLoop arr size (i + 1) c

/-- `Chunk(size)`: `nil` (`none`) for `size < 1`, else
`ceil(len/size)` chunks.  Go computes the count as
`int(math.Ceil(float64(length) / float64(size)))`; for any in-memory slice
length this float expression is exact, and it is embedded as the exact
ceiling division `(len + size - 1) / size`. -/
def Chunk (arr : List Int) (size : Int) : Option (List (List Int)) :=
  if size < 1 then none
  else some (chunkLoop arr size.toNat 0
    ((arr.length + size.toNat - 1) / size.toNat))

/-- The `Rand` loop over the random permutation: `n[i] = a.array[v]`
(`none` when either index is out of range — Go panics), stopping after the
iteration with `i == size-1`. -/
def randLoop (arr : List Int) (size : Int) (n : List Int) (i : Nat) :
    List Nat → Option (List Int)
  | [] => some n
  | v :: rest =>
    if i < n.length ∧ v < arr.length then
      let n1 := n.set i (arr.getD v 0)
      if (i : Int) = size - 1 then some n1
      else randLoop arr size n1 (i + 1) rest
    else none

/-- `Rand(size)`: clamp `size` down to the length, allocate the result
(`make([]int, size)` panics on a negative length) and fill it from the
random permutation `perm` of the index range, which is passed explicitly
in place of `grand.Perm(len(a.array))`. -/
def Rand (arr : List Int) (perm : List Nat) (size : Int) : Option (List Int) :=
  let size1 := if size > (arr.length : Int) then (arr.length : Int) else size
  if size1 < 0 then none
  else randLoop arr size1 (List.replicate size1.toNat 0) 0 perm

/-- The insertion point `Add` derives from a `binSearch` result: one past
the probed index when the last comparison was `greater`, the probed index
otherwise. -/
def insPoint (p : Int × Int) : Int := if p.2 > 0 then p.1 + 1 else p.1

/-- What a `binSearch` run over a nonempty array establishes: the returned
index is in range; on `cmp = 0` it carries an element equal to the value;
otherwise the derived insertion point splits the array into elements
strictly below and strictly above the value. -/
def Post (arr : List Int) (value : Int) (p : Int × Int) : Prop :=
  0 ≤ p.1 ∧ p.1 < (arr.length : Int) ∧
  (p.2 = 0 → arr.getD p.1.toNat 0 = value) ∧
  (p.2 ≠ 0 →
    0 ≤ insPoint p ∧ insPoint p ≤ (arr.length : Int) ∧
    (∀ j : Nat, j < arr.length → (j : Int) < insPoint p → arr.getD j 0 < value) ∧
    (∀ j : Nat, j < arr.length → insPoint p ≤ (j : Int) → value < arr.getD j 0))

/-- The `binSearch` loop invariant: the window `[mn, mx]` is inside the
array, everything left of it is below the value, everything right of it is
above, and if the window is already empty the carried `(mid, cmp)` pair
already satisfies the postcondition. -/
def Inv (arr : List Int) (value mn mx mid cmp : Int) : Prop :=
  0 ≤ mn ∧ mx ≤ (arr.length : Int) - 1 ∧
  (∀ j : Nat, j < arr.length → (j : Int) < mn → arr.getD j 0 < value) ∧
  (∀ j : Nat, j < arr.length → mx < (j : Int) → value < arr.getD j 0) ∧
  (mx < mn → Post arr value (mid, cmp))

/-! ## Basic facts about the embedded operations -/

theorem tdiv2_ge {mn mx : Int} (h : mn ≤ mx) : mn ≤ Int.tdiv (mn + mx) 2 := by
  rcases Int.le_or_lt 0 (mn + mx) with hs | hs
  · rw [Int.tdiv_eq_ediv hs (by norm_num)]; omega
  · have h2 : mn + mx = -(-(mn + mx)) := by ring
    rw [h2, Int.neg_tdiv, Int.tdiv_eq_ediv (by omega) (by norm_num)]
    omega

theorem tdiv2_le {mn mx : Int} (h : mn ≤ mx) : Int.tdiv (mn + mx) 2 ≤ mx := by
  rcases Int.le_or_lt 0 (mn + mx) with hs | hs
  · rw [Int.tdiv_eq_ediv hs (by norm_num)]; omega
  · have h2 : mn + mx = -(-(mn + mx)) := by ring
    rw [h2, Int.neg_tdiv, Int.tdiv_eq_ediv (by omega) (by norm_num)]
    omega

theorem compareFunc_neg {v x : Int} (h : compareFunc v x < 0) : v < x := by
  by_contra hc
  simp only [compareFunc, if_neg hc] at h
  split at h <;> omega

theorem compareFunc_pos {v x : Int} (h : compareFunc v x > 0) : x < v := by
  rcases lt_trichotomy v x with h1 | h1 | h1
  · simp [compareFunc, h1] at h
  · simp [compareFunc, h1] at h
  · exact h1

theorem compareFunc_zero {v x : Int} (h : compareFunc v x = 0) : v = x := by
  rcases lt_trichotomy v x with h1 | h1 | h1
  · simp [compareFunc, h1] at h
  · exact h1
  · simp [compareFunc, not_lt_of_gt h1, h1] at h

theorem compareFunc_eq_zero {v x : Int} (h : v = x) : compareFunc v x = 0 := by
  subst h; simp [compareFunc]

/-- Step lemma: exiting the `binSearch` loop. -/
theorem binSearchLoop_eq_exit (arr : List Int) (value mn mx mid cmp : Int)
    (h : ¬ mn ≤ mx) :
    binSearchLoop arr value mn mx mid cmp = (mid, cmp) := by
  rw [binSearchLoop.eq_def, if_neg h]

/-- Step lemma: the `value < elements[mid]` case narrows the upper bound. -/
theorem binSearchLoop_eq_lt (arr : List Int) (value mn mx mid cmp m c : Int)
    (h : mn ≤ mx) (hm : Int.tdiv (mn + mx) 2 = m)
    (hc : compareFunc value (arr.getD m.toNat 0) = c) (h2 : c < 0) :
    binSearchLoop arr value mn mx mid cmp = binSearchLoop arr value mn (m - 1) m c := by
  rw [binSearchLoop.eq_def, if_pos h]
  simp only [hm, hc, if_pos h2]

/-- Step lemma: the `value > elements[mid]` case narrows the lower bound. -/
theorem binSearchLoop_eq_gt (arr : List Int) (value mn mx mid cmp m c : Int)
    (h : mn ≤ mx) (hm : Int.tdiv (mn + mx) 2 = m)
    (hc : compareFunc value (arr.getD m.toNat 0) = c) (h2 : ¬ c < 0) (h3 : c > 0) :
    binSearchLoop arr value mn mx mid cmp = binSearchLoop arr value (m + 1) mx m c := by
  rw [binSearchLoop.eq_def, if_pos h]
  simp only [hm, hc, if_neg h2, if_pos h3]

/-- Step lemma: the equal case returns immediately. -/
theorem binSearchLoop_eq_found (arr : List Int) (value mn mx mid cmp m c : Int)
    (h : mn ≤ mx) (hm : Int.tdiv (mn + mx) 2 = m)
    (hc : compareFunc value (arr.getD m.toNat 0) = c) (h2 : ¬ c < 0) (h3 : ¬ c > 0) :
    binSearchLoop arr value mn mx mid cmp = (m, c) := by
  rw [binSearchLoop.eq_def, if_pos h]
  simp only [hm, hc, if_neg h2, if_neg h3]

/-- Pointwise monotonicity of a sorted array, in `getD` form. -/
theorem sorted_getD_le {arr : List Int} (hs : arr.Sorted (· ≤ ·))
    {i j : Nat} (hij : i ≤ j) (hj : j < arr.length) :
    arr.getD i 0 ≤ arr.getD j 0 := by
  rcases Nat.lt_or_ge i j with h | h
  · rw [List.getD_eq_getElem arr 0 (Nat.lt_trans h hj), List.getD_eq_getElem arr 0 hj]
    exact List.pairwise_iff_getElem.mp hs i j (Nat.lt_trans h hj) hj h
  · have : i = j := Nat.le_antisymm hij h
    subst this
    exact le_refl _

/-! ## The binary-search loop invariant -/

theorem binSearchLoop_post (arr : List Int) (value : Int)
    (hs : arr.Sorted (· ≤ ·)) :
    ∀ (k : Nat) (mn mx mid cmp : Int), (mx + 1 - mn).toNat ≤ k →
      Inv arr value mn mx mid cmp →
      Post arr value (binSearchLoop arr value mn mx mid cmp) := by
  intro k
  induction k with
  | zero =>
    intro mn mx mid cmp hk hinv
    have hx : ¬ mn ≤ mx := by omega
    rw [binSearchLoop_eq_exit arr value mn mx mid cmp hx]
    exact hinv.2.2.2.2 (by omega)
  | succ n ih =>
    intro mn mx mid cmp hk hinv
    obtain ⟨h1, h2, h3, h4, h5⟩ := hinv
    by_cases h : mn ≤ mx
    · have hmn : mn ≤ Int.tdiv (mn + mx) 2 := tdiv2_ge h
      have hmx : Int.tdiv (mn + mx) 2 ≤ mx := tdiv2_le h
      set m := Int.tdiv (mn + mx) 2 with hm
      set c := compareFunc value (arr.getD m.toNat 0) with hc
      have hmlen : ((m.toNat : Nat) : Int) = m := Int.toNat_of_nonneg (by omega)
      have hmlt : m.toNat < arr.length := by omega
      rcases lt_trichotomy c 0 with hcv | hcv | hcv
      · -- value < elements[m]: narrow the upper bound
        have hv : value < arr.getD m.toNat 0 := compareFunc_neg (hc ▸ hcv)
        have hright : ∀ j : Nat, j < arr.length → m - 1 < (j : Int) →
            value < arr.getD j 0 := by
          intro j hj hj2
          have hle := sorted_getD_le hs (i := m.toNat) (j := j) (by omega) hj
          omega
        rw [binSearchLoop_eq_lt arr value mn mx mid cmp m c h hm.symm hc.symm hcv]
        apply ih mn (m - 1) m c (by omega)
        refine ⟨h1, by omega, h3, hright, ?_⟩
        intro hex
        have hip : insPoint (m, c) = m := by
          simp only [insPoint]
          rw [if_neg (by omega : ¬ (m, c).2 > 0)]
        refine ⟨by omega, by omega, fun h0 => absurd h0 (by omega), fun _ => ?_⟩
        rw [hip]
        refine ⟨by omega, by omega, ?_, ?_⟩
        · intro j hj hj2
          exact h3 j hj (by omega)
        · intro j hj hj2
          exact hright j hj (by omega)
      · -- equal: found
        rw [binSearchLoop_eq_found arr value mn mx mid cmp m c h hm.symm hc.symm
          (by omega) (by omega)]
        refine ⟨by omega, by omega, fun _ => ?_, fun hne => absurd hcv hne⟩
        exact (compareFunc_zero (hc ▸ hcv)).symm
      · -- value > elements[m]: narrow the lower bound
        have hv : arr.getD m.toNat 0 < value := compareFunc_pos (hc ▸ hcv)
        have hleft : ∀ j : Nat, j < arr.length → (j : Int) < m + 1 →
            arr.getD j 0 < value := by
          intro j hj hj2
          have hle := sorted_getD_le hs (i := j) (j := m.toNat) (by omega) hmlt
          omega
        rw [binSearchLoop_eq_gt arr value mn mx mid cmp m c h hm.symm hc.symm
          (by omega) hcv]
        apply ih (m + 1) mx m c (by omega)
        refine ⟨by omega, h2, hleft, h4, ?_⟩
        intro hex
        have hip : insPoint (m, c) = m + 1 := by
          simp only [insPoint]
          rw [if_pos (by omega : (m, c).2 > 0)]
        refine ⟨by omega, by omega, fun h0 => absurd h0 (by omega), fun _ => ?_⟩
        rw [hip]
        refine ⟨by omega, by omega, ?_, ?_⟩
        · intro j hj hj2
          exact hleft j hj (by omega)
        · intro j hj hj2
          exact h4 j hj (by omega)
    · rw [binSearchLoop_eq_exit arr value mn mx mid cmp h]
      exact h5 (by omega)

/-- `binSearch` on a sorted nonempty array satisfies the postcondition. -/
theorem binSearch_post (arr : List Int) (value : Int)
    (hs : arr.Sorted (· ≤ ·)) (hne : arr ≠ []) :
    Post arr value (binSearch arr value) := by
  have hlen : arr.length ≠ 0 := by
    simpa [List.length_eq_zero] using hne
  rw [binSearch, if_neg hlen]
  apply binSearchLoop_post arr value hs
    ((arr.length : Int) - 1 + 1 - 0).toNat 0 ((arr.length : Int) - 1) 0 (-2)
    (le_refl _)
  refine ⟨le_refl 0, le_refl _, ?_, ?_, ?_⟩
  · intro j _ hj0
    exact absurd hj0 (by omega)
  · intro j hj hjz
    exact absurd hjz (by omega)
  · intro hcon
    exact absurd rfl (by omega : ¬ (0 : Int) = 0)

/-- On a sorted array a present value is always found with `cmp = 0`, at an
index carrying an equal element. -/
theorem binSearch_mem (arr : List Int) (value : Int)
    (hs : arr.Sorted (· ≤ ·)) (hv : value ∈ arr) :
    (binSearch arr value).2 = 0 ∧ 0 ≤ (binSearch arr value).1 ∧
    (binSearch arr value).1 < (arr.length : Int) ∧
    arr.getD (binSearch arr value).1.toNat 0 = value := by
  have hne : arr ≠ [] := List.ne_nil_of_mem hv
  obtain ⟨h1, h2, h3, h4⟩ := binSearch_post arr value hs hne
  by_cases hz : (binSearch arr value).2 = 0
  · exact ⟨hz, h1, h2, h3 hz⟩
  · exfalso
    obtain ⟨q1, q2, q3, q4⟩ := h4 hz
    obtain ⟨j, hj, hjv⟩ := List.mem_iff_getElem.mp hv
    rcases lt_or_ge (j : Int) (insPoint (binSearch arr value)) with hlt | hge
    · have hq := q3 j hj hlt
      rw [List.getD_eq_getElem arr 0 hj, hjv] at hq
      omega
    · have hq := q4 j hj hge
      rw [List.getD_eq_getElem arr 0 hj, hjv] at hq
      omega

/-! ## Sortedness of splicing at a correct insertion point -/

theorem mem_take_getD {arr : List Int} {k : Nat} {x : Int}
    (hx : x ∈ arr.take k) :
    ∃ j : Nat, j < k ∧ j < arr.length ∧ arr.getD j 0 = x := by
  obtain ⟨j, hj, hjx⟩ := List.mem_iff_getElem.mp hx
  have hjlen : j < arr.length := lt_of_lt_of_le hj (by simp [List.length_take])
  have hjk : j < k := lt_of_lt_of_le hj (by simp [List.length_take])
  refine ⟨j, hjk, hjlen, ?_⟩
  rw [List.getD_eq_getElem arr 0 hjlen, ← List.getElem_take arr (j := k) (h := hj)]
  exact hjx

theorem mem_drop_getD {arr : List Int} {k : Nat} {x : Int}
    (hx : x ∈ arr.drop k) :
    ∃ j : Nat, k ≤ j ∧ j < arr.length ∧ arr.getD j 0 = x := by
  obtain ⟨j, hj, hjx⟩ := List.mem_iff_getElem.mp hx
  have hjlen : k + j < arr.length := by
    have := List.length_drop k arr
    omega
  refine ⟨k + j, by omega, hjlen, ?_⟩
  rw [List.getD_eq_getElem arr 0 hjlen, ← List.getElem_drop arr (h := hj)]
  exact hjx

theorem sorted_splice {arr : List Int} (hs : arr.Sorted (· ≤ ·)) (v : Int)
    (k : Nat) (hk : k ≤ arr.length)
    (hl : ∀ j : Nat, j < arr.length → j < k → arr.getD j 0 ≤ v)
    (hr : ∀ j : Nat, j < arr.length → k ≤ j → v ≤ arr.getD j 0) :
    (arr.take k ++ v :: arr.drop k).Sorted (· ≤ ·) := by
  have hdrop : ∀ y ∈ arr.drop k, v ≤ y := by
    intro y hy
    obtain ⟨j, hjk, hjlen, hjy⟩ := mem_drop_getD hy
    rw [← hjy]
    exact hr j hjlen hjk
  have htake : ∀ x ∈ arr.take k, x ≤ v := by
    intro x hx
    obtain ⟨j, hjk, hjlen, hjx⟩ := mem_take_getD hx
    rw [← hjx]
    exact hl j hjlen hjk
  rw [List.Sorted, List.pairwise_append]
  refine ⟨List.Pairwise.sublist (List.take_sublist k arr) hs, ?_, ?_⟩
  · rw [List.pairwise_cons]
    exact ⟨hdrop, List.Pairwise.sublist (List.drop_sublist k arr) hs⟩
  · intro x hx y hy
    rcases List.mem_cons.mp hy with hyv | hyd
    · rw [hyv]; exact htake x hx
    · exact le_trans (htake x hx) (hdrop y hyd)

theorem sorted_splice_strict {arr : List Int} (hs : arr.Sorted (· < ·)) (v : Int)
    (k : Nat) (hk : k ≤ arr.length)
    (hl : ∀ j : Nat, j < arr.length → j < k → arr.getD j 0 < v)
    (hr : ∀ j : Nat, j < arr.length → k ≤ j → v < arr.getD j 0) :
    (arr.take k ++ v :: arr.drop k).Sorted (· < ·) := by
  have hdrop : ∀ y ∈ arr.drop k, v < y := by
    intro y hy
    obtain ⟨j, hjk, hjlen, hjy⟩ := mem_drop_getD hy
    rw [← hjy]
    exact hr j hjlen hjk
  have htake : ∀ x ∈ arr.take k, x < v := by
    intro x hx
    obtain ⟨j, hjk, hjlen, hjx⟩ := mem_take_getD hx
    rw [← hjx]
    exact hl j hjlen hjk
  rw [List.Sorted, List.pairwise_append]
  refine ⟨List.Pairwise.sublist (List.take_sublist k arr) hs, ?_, ?_⟩
  · rw [List.pairwise_cons]
    exact ⟨hdrop, List.Pairwise.sublist (List.drop_sublist k arr) hs⟩
  · intro x hx y hy
    rcases List.mem_cons.mp hy with hyv | hyd
    · rw [hyv]; exact htake x hx
    · exact lt_trans (htake x hx) (hdrop y hyd)

/-! ## `Add` keeps the array sorted -/

theorem insertValue_sorted (arr : List Int) (uniq : Bool) (v : Int)
    (hs : arr.Sorted (· ≤ ·)) :
    (insertValue arr uniq v).Sorted (· ≤ ·) := by
  by_cases hne : arr = []
  · subst hne
    have hb : binSearch [] v = (-1, -2) := rfl
    rw [insertValue, hb]
    norm_num
  · obtain ⟨h1, h2, h3, h4⟩ := binSearch_post arr v hs hne
    rw [insertValue]
    by_cases hq : uniq = true ∧ (binSearch arr v).2 = 0
    · rw [if_pos hq]; exact hs
    · rw [if_neg hq, if_neg (by omega : ¬ (binSearch arr v).1 < 0)]
      set p := binSearch arr v with hp
      set k := (if p.2 > 0 then p.1 + 1 else p.1) with hkdef
      have hkip : k = insPoint p := rfl
      have hk0 : 0 ≤ k := by rw [hkdef]; split <;> omega
      by_cases hz : p.2 = 0
      · have hkp : k = p.1 := by rw [hkdef, if_neg (by omega : ¬ p.2 > 0)]
        have hmv := h3 hz
        have hklen : k ≤ (arr.length : Int) := by omega
        apply sorted_splice hs v k.toNat (by omega)
        · intro j hj hjk
          have hle := sorted_getD_le hs (i := j) (j := p.1.toNat) (by omega) (by omega)
          omega
        · intro j hj hjk
          have hle := sorted_getD_le hs (i := p.1.toNat) (j := j) (by omega) hj
          omega
      · obtain ⟨q1, q2, q3, q4⟩ := h4 hz
        rw [← hkip] at q1 q2 q3 q4
        apply sorted_splice hs v k.toNat (by omega)
        · intro j hj hjk
          have := q3 j hj (by omega)
          omega
        · intro j hj hjk
          have := q4 j hj (by omega)
          omega

theorem insertValue_sorted_strict (arr : List Int) (v : Int)
    (hs : arr.Sorted (· < ·)) :
    (insertValue arr true v).Sorted (· < ·) := by
  have hs' : arr.Sorted (· ≤ ·) := hs.imp (fun h => le_of_lt h)
  by_cases hne : arr = []
  · subst hne
    have hb : binSearch [] v = (-1, -2) := rfl
    rw [insertValue, hb]
    norm_num
  · obtain ⟨h1, h2, h3, h4⟩ := binSearch_post arr v hs' hne
    rw [insertValue]
    by_cases hz : (binSearch arr v).2 = 0
    · rw [if_pos ⟨rfl, hz⟩]; exact hs
    · rw [if_neg (by simp [hz]), if_neg (by omega : ¬ (binSearch arr v).1 < 0)]
      set p := binSearch arr v with hp
      set k := (if p.2 > 0 then p.1 + 1 else p.1) with hkdef
      have hkip : k = insPoint p := rfl
      obtain ⟨q1, q2, q3, q4⟩ := h4 hz
      rw [← hkip] at q1 q2 q3 q4
      apply sorted_splice_strict hs v k.toNat (by omega)
      · intro j hj hjk
        exact q3 j hj (by omega)
      · intro j hj hjk
        exact q4 j hj (by omega)

theorem foldlInsert_sorted (uniq : Bool) :
    ∀ (vs : List Int) (arr : List Int), arr.Sorted (· ≤ ·) →
      (vs.foldl (fun acc v => insertValue acc uniq v) arr).Sorted (· ≤ ·)
  | [], arr, h => h
  | v :: vs, arr, h => by
    simp only [List.foldl_cons]
    exact foldlInsert_sorted uniq vs _ (insertValue_sorted arr uniq v h)

theorem foldlInsert_sorted_strict :
    ∀ (vs : List Int) (arr : List Int), arr.Sorted (· < ·) →
      (vs.foldl (fun acc v => insertValue acc true v) arr).Sorted (· < ·)
  | [], arr, h => h
  | v :: vs, arr, h => by
    simp only [List.foldl_cons]
    exact foldlInsert_sorted_strict vs _ (insertValue_sorted_strict arr v h)

/-! ## `sortInts` facts -/

theorem sortInts_perm (l : List Int) : (sortInts l).Perm l :=
  List.mergeSort_perm l _

theorem sortInts_sorted (l : List Int) : (sortInts l).Sorted (· ≤ ·) := by
  have h := List.sorted_mergeSort
    (fun (a b c : Int) (hab : decide (a ≤ b) = true) (hbc : decide (b ≤ c) = true) => by
      simp only [decide_eq_true_eq] at hab hbc ⊢
      omega)
    (fun (a b : Int) => by
      simp only [Bool.or_eq_true, decide_eq_true_eq]
      omega) l
  unfold sortInts
  exact h.imp (fun hab => by simpa using hab)

theorem sortInts_eq_of_sorted {l : List Int} (h : l.Sorted (· ≤ ·)) :
    sortInts l = l :=
  List.eq_of_perm_of_sorted (sortInts_perm l) (sortInts_sorted l) h

/-! ## Claim theorems -/

/-- C1: `Search` is documented (and specified) to return `-1` when no
element equals the value, but the code returns `binSearch`'s index
component unconditionally; on the non-empty array `[1]`, `Search 2`
returns the last probed midpoint `0` even though `2` is absent. -/
theorem Search_absent_bug :
    Search ⟨[1], false, true⟩ 2 = 0 ∧ (2 : Int) ∉ ([1] : List Int) := by
  have e0 : binSearch [1] 2 = binSearchLoop [1] 2 0 0 0 (-2) := rfl
  have e1 : binSearchLoop [1] 2 0 0 0 (-2) = binSearchLoop [1] 2 1 0 0 1 :=
    binSearchLoop_eq_gt [1] 2 0 0 0 (-2) 0 1 (by decide) (by decide) (by decide)
      (by decide) (by decide)
  have e2 : binSearchLoop [1] 2 1 0 0 1 = (0, 1) :=
    binSearchLoop_eq_exit [1] 2 1 0 0 1 (by decide)
  constructor
  · show (binSearch [1] 2).1 = 0
    rw [e0, e1, e2]
  · decide

/-- C2: `Contains` is `Search(value) == 0`, not `Search(value) != -1`; on
`[1, 2]` the value `2` is present and found at index `1`, yet `Contains`
reports `false`. -/
theorem Contains_bug :
    Contains ⟨[1, 2], false, true⟩ 2 = false ∧
    Search ⟨[1, 2], false, true⟩ 2 = 1 ∧ (2 : Int) ∈ ([1, 2] : List Int) := by
  have e0 : binSearch [1, 2] 2 = binSearchLoop [1, 2] 2 0 1 0 (-2) := rfl
  have e1 : binSearchLoop [1, 2] 2 0 1 0 (-2) = binSearchLoop [1, 2] 2 1 1 0 1 :=
    binSearchLoop_eq_gt [1, 2] 2 0 1 0 (-2) 0 1 (by decide) (by decide) (by decide)
      (by decide) (by decide)
  have e2 : binSearchLoop [1, 2] 2 1 1 0 1 = (1, 0) :=
    binSearchLoop_eq_found [1, 2] 2 1 1 0 1 1 0 (by decide) (by decide) (by decide)
      (by decide) (by decide)
  have hsearch : Search ⟨[1, 2], false, true⟩ 2 = 1 := by
    show (binSearch [1, 2] 2).1 = 1
    rw [e0, e1, e2]
  refine ⟨?_, hsearch, by decide⟩
  show (Search ⟨[1, 2], false, true⟩ 2 == 0) = false
  rw [hsearch]
  decide

/-- C3: starting from a sorted state, any sequence of `Add` calls leaves
the backing array sorted, in particular `elements[i] ≤ elements[i+1]` for
every adjacent pair (any state after a call of the sequence is `Add` of a
prefix, so this covers every intermediate state). -/
theorem Add_keeps_sorted (a : SortedIntArray) (vs : List Int)
    (h : a.array.Sorted (· ≤ ·)) :
    ((Add a vs).array).Sorted (· ≤ ·) ∧
    ∀ i : Nat, i + 1 < (Add a vs).array.length →
      (Add a vs).array.getD i 0 ≤ (Add a vs).array.getD (i + 1) 0 := by
  have hsorted : ((Add a vs).array).Sorted (· ≤ ·) :=
    foldlInsert_sorted a.unique vs a.array h
  refine ⟨hsorted, ?_⟩
  intro i hi
  rw [List.getD_eq_getElem _ 0 (by omega), List.getD_eq_getElem _ 0 hi]
  exact List.pairwise_iff_getElem.mp hsorted i (i + 1) (by omega) hi (by omega)

theorem Add_keeps_sorted_witness :
    ([1, 3] : List Int).Sorted (· ≤ ·) ∧
    ((Add ⟨[1, 3], false, true⟩ [2]).array).Sorted (· ≤ ·) :=
  ⟨by decide, (Add_keeps_sorted ⟨[1, 3], false, true⟩ [2] (by decide)).1⟩

/-- C4: with the unique flag set and a sorted duplicate-free start state,
after any sequence of `Add` calls no two elements compare equal (the array
is even strictly sorted), and an `Add` of an already-present value leaves
the length unchanged. -/
theorem Add_unique_invariant (a : SortedIntArray) (vs : List Int) (v : Int)
    (hu : a.unique = true) (h : a.array.Sorted (· < ·)) :
    List.Pairwise (fun x y => compareFunc x y ≠ 0) ((Add a vs).array) ∧
    ((Add a vs).array).Sorted (· < ·) ∧
    (v ∈ a.array → (Add a [v]).array.length = a.array.length) := by
  have hstrict : ((Add a vs).array).Sorted (· < ·) := by
    show (vs.foldl (fun arr w => insertValue arr a.unique w) a.array).Sorted (· < ·)
    rw [hu]
    exact foldlInsert_sorted_strict vs a.array h
  refine ⟨?_, hstrict, ?_⟩
  · exact hstrict.imp (fun hxy hc => absurd (compareFunc_zero hc) (ne_of_lt hxy))
  · intro hv
    have hs' : a.array.Sorted (· ≤ ·) := h.imp (fun hlt => le_of_lt hlt)
    obtain ⟨hz, _, _, _⟩ := binSearch_mem a.array v hs' hv
    show (([v] : List Int).foldl (fun arr w => insertValue arr a.unique w) a.array).length = _
    rw [hu]
    simp only [List.foldl_cons, List.foldl_nil]
    rw [insertValue, if_pos ⟨rfl, hz⟩]

theorem Add_unique_invariant_witness :
    (⟨[1, 3], true, true⟩ : SortedIntArray).unique = true ∧
    ([1, 3] : List Int).Sorted (· < ·) ∧
    (3 : Int) ∈ ([1, 3] : List Int) ∧
    (Add ⟨[1, 3], true, true⟩ [3]).array.length = ([1, 3] : List Int).length := by
  refine ⟨rfl, by decide, by decide, ?_⟩
  exact (Add_unique_invariant ⟨[1, 3], true, true⟩ [3] 3 rfl (by decide)).2.2 (by decide)

/-- C5 counterexample: a self-merge is not a no-op re-sort — merging the
one-element structure `[1]` with itself yields `[1, 1]`. -/
theorem Merge_self_counterexample :
    (Merge ⟨[1], false, true⟩ ⟨[1], false, true⟩).array = [1, 1] ∧
    (Merge ⟨[1], false, true⟩ ⟨[1], false, true⟩).array ≠ [1] := by
  have h : (Merge (⟨[1], false, true⟩ : SortedIntArray) ⟨[1], false, true⟩).array
      = sortInts [1, 1] := rfl
  rw [h, sortInts_eq_of_sorted (by decide)]
  exact ⟨rfl, by decide⟩

/-- C5 amended: a self-merge appends the structure's own contents to itself
and re-sorts, so the result is sorted and every element's multiplicity is
doubled (in particular the contents are unchanged only when empty); the
pointer-equality test in the source only avoids the second lock
acquisition. -/
theorem Merge_self_doubles (a : SortedIntArray) :
    ((Merge a a).array).Sorted (· ≤ ·) ∧
    ∀ x : Int, (Merge a a).array.count x = 2 * a.array.count x := by
  constructor
  · exact sortInts_sorted _
  · intro x
    have hp : ((Merge a a).array).Perm (a.array ++ a.array) := sortInts_perm _
    rw [hp.count_eq x, List.count_append]
    omega

/-- C6 counterexample: `Clone` passes `!a.mu.IsSafe()` as the *unsafe*
argument of the constructor, so the clone's mode equals the source's mode;
for a safe-mode source the clone is safe-mode, not unsafe-mode as claimed. -/
theorem Clone_mode_counterexample :
    (Clone ⟨[1, 2], false, true⟩).safe = true ∧
    ¬ ((Clone ⟨[1, 2], false, true⟩).safe
        = (!(⟨[1, 2], false, true⟩ : SortedIntArray).safe)) :=
  ⟨rfl, by decide⟩

/-- C6 amended: `Clone` returns an independent structure with equal
contents (the constructor re-sort is the identity on the already-sorted
source) and with the *same* concurrency mode as the source — the mode is
preserved, not flipped. -/
theorem Clone_preserves (a : SortedIntArray) (h : a.array.Sorted (· ≤ ·)) :
    (Clone a).safe = a.safe ∧ (Clone a).array = a.array := by
  constructor
  · show rwmutexNew (!a.safe) = a.safe
    simp [rwmutexNew]
  · show sortInts a.array = a.array
    exact sortInts_eq_of_sorted h

theorem Clone_preserves_witness :
    ([1, 2] : List Int).Sorted (· ≤ ·) ∧
    (Clone ⟨[1, 2], false, true⟩).safe = (⟨[1, 2], false, true⟩ : SortedIntArray).safe ∧
    (Clone ⟨[1, 2], false, true⟩).array = ([1, 2] : List Int) := by
  refine ⟨by decide, ?_, ?_⟩
  · exact (Clone_preserves ⟨[1, 2], false, true⟩ (by decide)).1
  · exact (Clone_preserves ⟨[1, 2], false, true⟩ (by decide)).2

/-! ## `Chunk` -/

theorem ceil_mul_ge (len s : Nat) (hs : 1 ≤ s) :
    len ≤ ((len + s - 1) / s) * s := by
  have h := Nat.lt_div_mul_add (a := len + s - 1) (b := s) (by omega)
  omega

theorem lt_ceil_mul_lt (len s k : Nat) (hs : 1 ≤ s)
    (hk : k < (len + s - 1) / s) : k * s < len := by
  have h := Nat.div_mul_le_self (len + s - 1) s
  have h2 : (k + 1) * s ≤ ((len + s - 1) / s) * s :=
    Nat.mul_le_mul_right s (by omega)
  have h3 : (k + 1) * s = k * s + s := by ring
  omega

theorem chunkLoop_length (arr : List Int) (s : Nat) :
    ∀ (c i : Nat), (chunkLoop arr s i c).length = c
  | 0, _ => rfl
  | c + 1, i => by
    simp only [chunkLoop, List.length_cons, chunkLoop_length arr s c (i + 1)]

theorem chunkLoop_flatten (arr : List Int) (s : Nat) :
    ∀ (c i : Nat), arr.length ≤ (i + c) * s →
      (chunkLoop arr s i c).flatten = arr.drop (i * s)
  | 0, i, h => by
    simp only [chunkLoop, List.flatten_nil]
    exact (List.drop_eq_nil_of_le (by simpa using h)).symm
  | c + 1, i, h => by
    have hrec : arr.length ≤ (i + 1 + c) * s := by
      have he : (i + 1 + c) * s = (i + (c + 1)) * s := by ring
      rw [he]; exact h
    simp only [chunkLoop, List.flatten_cons]
    rw [chunkLoop_flatten arr s c (i + 1) hrec]
    unfold chunkSeg
    rcases le_or_lt arr.length ((i + 1) * s) with hle | hlt
    · rw [Nat.min_eq_right hle, List.drop_eq_nil_of_le hle, List.append_nil]
      have hlen : (arr.drop (i * s)).length = arr.length - i * s :=
        List.length_drop _ _
      rw [← hlen]
      exact List.take_length _
    · rw [Nat.min_eq_left (Nat.le_of_lt hlt)]
      have hstep : (i + 1) * s - i * s = s := by
        have h2 : (i + 1) * s = i * s + s := by ring
        omega
      rw [hstep]
      have hdd : (arr.drop (i * s)).drop s = arr.drop ((i + 1) * s) := by
        rw [List.drop_drop]
        congr 1
        ring
      rw [← hdd, List.take_append_drop]

theorem chunkLoop_get (arr : List Int) (s : Nat) :
    ∀ (c i j : Nat) (hj : j < (chunkLoop arr s i c).length),
      (chunkLoop arr s i c).get ⟨j, hj⟩ = chunkSeg arr s (i + j)
  | 0, i, j, hj => by
    exact absurd hj (by simp [chunkLoop])
  | c + 1, i, 0, hj => by
    simp [chunkLoop]
  | c + 1, i, j + 1, hj => by
    simp only [chunkLoop, List.get_cons_succ]
    rw [chunkLoop_get arr s c (i + 1) j _]
    congr 1
    omega

theorem chunkSeg_length (arr : List Int) (s j : Nat)
    (h : (j + 1) * s ≤ arr.length) :
    (chunkSeg arr s j).length = s := by
  unfold chunkSeg
  rw [List.length_take, List.length_drop, Nat.min_eq_left h]
  have h2 : (j + 1) * s = j * s + s := by ring
  omega

/-- C7: for `size ≥ 1` the chunks concatenate back to the original contents
and every chunk but possibly the last has exactly `size` elements; for
`size < 1` the result is absent (`nil`). -/
theorem Chunk_law (arr : List Int) (size : Int) :
    (1 ≤ size →
      ∃ cs, Chunk arr size = some cs ∧ cs.flatten = arr ∧
        ∀ (j : Nat) (hj : j < cs.length), j + 1 < cs.length →
          (cs.get ⟨j, hj⟩).length = size.toNat) ∧
    (size < 1 → Chunk arr size = none) := by
  constructor
  · intro h1
    have hs : 1 ≤ size.toNat := by omega
    refine ⟨chunkLoop arr size.toNat 0 ((arr.length + size.toNat - 1) / size.toNat),
      ?_, ?_, ?_⟩
    · rw [Chunk, if_neg (by omega)]
    · have hflat := chunkLoop_flatten arr size.toNat
        ((arr.length + size.toNat - 1) / size.toNat) 0 (by
          have h2 := ceil_mul_ge arr.length size.toNat hs
          have hz : (0 + (arr.length + size.toNat - 1) / size.toNat) * size.toNat
              = ((arr.length + size.toNat - 1) / size.toNat) * size.toNat := by
            ring
          omega)
      rw [hflat]
      simp
    · intro j hj hj1
      rw [chunkLoop_get arr size.toNat _ 0 j hj]
      rw [chunkLoop_length] at hj1
      have hmul : (j + 1) * size.toNat ≤ arr.length := by
        have h2 := lt_ceil_mul_lt arr.length size.toNat (j + 1) hs (by omega)
        omega
      have hz : (0 + j) = j := by omega
      rw [hz]
      exact chunkSeg_length arr size.toNat j hmul
  · intro h1
    rw [Chunk, if_pos h1]

theorem Chunk_law_witness :
    (1 : Int) ≤ 2 ∧
    ∃ cs, Chunk [1, 2, 3] 2 = some cs ∧ cs.flatten = [1, 2, 3] ∧
      ∀ (j : Nat) (hj : j < cs.length), j + 1 < cs.length →
        (cs.get ⟨j, hj⟩).length = (2 : Int).toNat :=
  ⟨by decide, (Chunk_law [1, 2, 3] 2).1 (by decide)⟩

/-! ## `SubSlice`, the clamped operations, and `Unique` on empty -/

/-- C8: in unsafe mode `SubSlice` returns `a.array[offset:]`, ignoring the
(clamped) `size`: on `[1,2,3]` with `offset = 0`, `size = 1` it returns all
three elements instead of `[1]`, contrary to the function's documentation
and to the safe-mode branch. -/
theorem SubSlice_unsafe_bug :
    SubSlice false [1, 2, 3] 0 1 = some (some [1, 2, 3]) ∧
    SubSlice true [1, 2, 3] 0 1 = some (some [1]) := by
  constructor <;> decide

/-- C9 counterexample: `Rand(0)` on a nonempty array panics (the loop writes
`n[0]` into the zero-length result slice before checking the break
condition), and `PopLefts(-1)` panics (negative sizes are not clamped). -/
theorem Rand_PopLefts_negative_fail :
    Rand [5] [0] 0 = none ∧ PopLefts [1] (-1) = none := by
  constructor <;> decide

theorem randLoop_ne_none (arr : List Int) (size : Int) :
    ∀ (ps : List Nat) (n : List Int) (i : Nat),
      (n.length : Int) = size →
      (i : Int) ≤ size - 1 →
      size - 1 - (i : Int) < (ps.length : Int) →
      (∀ v ∈ ps, v < arr.length) →
      randLoop arr size n i ps ≠ none
  | [], _, i, h1, h2, h3, _ => by
    exfalso
    simp only [List.length_nil] at h3
    omega
  | v :: ps, n, i, h1, h2, h3, h4 => by
    simp only [randLoop]
    have hi : i < n.length := by omega
    have hv : v < arr.length := h4 v (List.mem_cons_self v ps)
    rw [if_pos ⟨hi, hv⟩]
    by_cases hb : (i : Int) = size - 1
    · rw [if_pos hb]
      simp
    · rw [if_neg hb]
      apply randLoop_ne_none arr size ps (n.set i (arr.getD v 0)) (i + 1)
      · rw [List.length_set]; exact h1
      · push_cast; omega
      · simp only [List.length_cons] at h3
        push_cast at h3 ⊢
        omega
      · exact fun w hw => h4 w (List.mem_cons_of_mem v hw)

/-- C9 amended: restricted to non-negative `size`/`offset` arguments (for
`Range`, a non-negative `end` or an `end` below `start`; for `Rand`, a
positive `n` or an empty structure) the five operations clamp and never
fail; but a negative argument makes `PopLefts`/`PopRights`/`SubSlice`/
`Range` panic, and `Rand(0)` on a nonempty structure panics. -/
theorem clamped_ops_ok (arr : List Int) (safe : Bool)
    (size offset start stop rsize : Int) (perm : List Nat) :
    (0 ≤ size → PopLefts arr size ≠ none ∧ PopRights arr size ≠ none) ∧
    (0 ≤ offset → 0 ≤ size → SubSlice safe arr offset size ≠ none) ∧
    (0 ≤ stop ∨ stop < start → Range arr start stop ≠ none) ∧
    (perm.Perm (List.range arr.length) → 1 ≤ rsize ∨ (0 ≤ rsize ∧ arr = []) →
      Rand arr perm rsize ≠ none) := by
  refine ⟨?_, ?_, ?_, ?_⟩
  · intro h
    constructor
    · simp only [PopLefts]
      split_ifs with h1 <;> simp_all <;> omega
    · simp only [PopRights]
      split_ifs with h1 <;> simp_all <;> omega
  · intro h1 h2
    simp only [SubSlice]
    split_ifs <;> simp_all <;> omega
  · intro h
    simp only [Range]
    split_ifs <;> simp_all <;> omega
  · intro hperm hsz
    have hlen : perm.length = arr.length := by
      simpa using hperm.length_eq
    have hmem : ∀ v ∈ perm, v < arr.length := by
      intro v hv
      exact List.mem_range.mp (hperm.mem_iff.mp hv)
    rcases List.eq_nil_or_concat arr with hemp | _
    · subst hemp
      have hpnil : perm = [] := List.eq_nil_of_length_eq_zero (by simpa using hlen)
      subst hpnil
      simp only [Rand, List.length_nil, Nat.cast_zero]
      have hsz0 : 0 ≤ rsize := by rcases hsz with h | h <;> [omega; exact h.1]
      split_ifs with h1 h2 h2 <;> simp_all [randLoop] <;> omega
    · have hne : arr ≠ [] := by
        rename_i hcat
        obtain ⟨l, b, rfl⟩ := hcat
        simp
      have hlen1 : 1 ≤ arr.length := by
        rcases arr with _ | _
        · exact absurd rfl hne
        · simp
      have hr1 : 1 ≤ rsize := by
        rcases hsz with h | h
        · exact h
        · exact absurd h.2 hne
      simp only [Rand]
      set size1 := if rsize > (arr.length : Int) then (arr.length : Int) else rsize
        with hs1
      have hb1 : 1 ≤ size1 ∧ size1 ≤ (arr.length : Int) := by
        rw [hs1]; split <;> omega
      rw [if_neg (by omega)]
      apply randLoop_ne_none arr size1 perm (List.replicate size1.toNat 0) 0
      · simp only [List.length_replicate]
        omega
      · simp only [Nat.cast_zero]
        omega
      · simp only [Nat.cast_zero, hlen]
        omega
      · exact hmem

theorem clamped_ops_ok_witness :
    PopLefts [1, 2] 5 ≠ none ∧ PopRights [1, 2] 5 ≠ none ∧
    SubSlice true [1, 2] 1 5 ≠ none ∧ Range [1, 2] 0 5 ≠ none ∧
    Rand [1, 2] [1, 0] 1 ≠ none := by
  refine ⟨?_, ?_, ?_, ?_, ?_⟩
  · exact ((clamped_ops_ok [1, 2] true 5 1 0 5 1 [1, 0]).1 (by decide)).1
  · exact ((clamped_ops_ok [1, 2] true 5 1 0 5 1 [1, 0]).1 (by decide)).2
  · exact (clamped_ops_ok [1, 2] true 5 1 0 5 1 [1, 0]).2.1 (by decide) (by decide)
  · exact (clamped_ops_ok [1, 2] true 5 1 0 5 1 [1, 0]).2.2.1 (Or.inl (by decide))
  · exact (clamped_ops_ok [1, 2] true 5 1 0 5 1 [1, 0]).2.2.2 (by decide)
      (Or.inl (by decide))

/-- C10: `Unique()` on an empty structure fails — the loop's stop test
`i == len(a.array)-1` compares `0` to `-1` and the subsequent access of
element `0`/`1` is out of range — and therefore `SetUnique(true)` on an
empty structure whose flag was `false` fails as well, since the false→true
transition triggers the `Unique()` pass. -/
theorem Unique_empty_fails :
    Unique ⟨[], false, true⟩ = none ∧
    (∀ a : SortedIntArray, a.array = [] → a.unique = false →
      SetUnique a true = none) := by
  have hu : uniqueLoop [] 0 = none := by
    rw [uniqueLoop.eq_def]
    norm_num
  constructor
  · show (uniqueLoop [] 0).map _ = none
    rw [hu]
    rfl
  · intro a h1 h2
    show (if true = true ∧ a.unique ≠ true then Unique { a with unique := true }
      else some { a with unique := true }) = none
    rw [if_pos ⟨rfl, by rw [h2]; exact Bool.false_ne_true⟩]
    show (uniqueLoop a.array 0).map _ = none
    rw [h1, hu]
    rfl

theorem Unique_empty_fails_witness :
    (⟨[], false, true⟩ : SortedIntArray).array = [] ∧
    (⟨[], false, true⟩ : SortedIntArray).unique = false ∧
    SetUnique ⟨[], false, true⟩ true = none :=
  ⟨rfl, rfl, Unique_empty_fails.2 ⟨[], false, true⟩ rfl rfl⟩

end GArray
